import Mathlib

/-!
Verification of the Linecraft curve-analysis core (src/main.py) against its
natural-language specification.  The collection-manager logic (selection-count
guards, reordering, reference toggling, naming, dispatch) is embedded directly
from src/main.py.  The numeric helpers living in the external generictools
signal_tools module (Curve data class, log interpolation, summation, IQR
analysis) are not part of the repository snapshot and are modelled from the
specification, as marked in their doc comments.
-/

namespace Linecraft

/-- Modelled from the spec: the signal_tools.Curve entity (missing from src/).
A curve owns a frequency/level series, a naming scheme (index tag, base name,
ordered suffix list), a visibility flag and a reference flag.  Frequencies are
exact rationals; the level type is a parameter (rational for raw curves, real
for derived curves produced by the interpolating statistics operations). -/
structure Curve (α : Type) where
  name_pfx : String
  name_base : String
  name_suffixes : List String
  visible : Bool
  is_reference : Bool
  freqs : List ℚ
  levels : List α

/-- Modelled from the spec: Curve.add_name_suffix appends one suffix entry
(duplicates allowed, order kept). -/
def add_name_suffix (c : Curve α) (s : String) : Curve α :=
  { c with name_suffixes := c.name_suffixes ++ [s] }

/-- Modelled from the spec: Curve.remove_name_suffix removes the first
matching suffix entry. -/
def remove_name_suffix (c : Curve α) (s : String) : Curve α :=
  { c with name_suffixes := c.name_suffixes.erase s }

/-- Modelled from the spec: Curve.set_reference toggles the reference flag. -/
def set_reference (c : Curve α) (b : Bool) : Curve α :=
  { c with is_reference := b }

/-- Modelled from the spec: Curve.get_base_name_and_suffixes, the display name
without the index tag: base name and suffixes joined by comma separators. -/
def base_name_and_suffixes (c : Curve α) : String :=
  String.intercalate ", " (c.name_base :: c.name_suffixes)

/-! ### Fixed-point number formatting (Python format spec ".2f" / ".1f") -/

/-- Round the fraction a / b (with b > 0) to the nearest integer, ties to
even, as Python float formatting does. -/
def roundHalfToEvenFrac (a b : ℤ) : ℤ :=
  let f := Int.fdiv a b
  let r2 := 2 * (a - f * b)
  if r2 < b then f
  else if b < r2 then f + 1
  else if f % 2 = 0 then f else f + 1

/-- Decimal digit character. -/
def digitChar (n : ℕ) : Char := Char.ofNat (48 + n % 10)

/-- Decimal digits of a natural number (fuel-driven, fuel ≥ number of digits). -/
def natDigits : ℕ → ℕ → List Char
  | 0, _ => []
  | fuel + 1, n =>
    if n < 10 then [digitChar n]
    else natDigits fuel (n / 10) ++ [digitChar (n % 10)]

/-- Render a natural number in decimal. -/
def natToStr (n : ℕ) : String := String.mk (natDigits (n + 1) n)

/-- Python fixed-point formatting with d decimal places applied to an exact
rational value (Python applies it to the IEEE double; both agree on exactly
representable values): round half to even at the d-th decimal, render a sign,
an integer part and exactly d fractional digits. -/
def fmtFixed (d : ℕ) (q : ℚ) : String :=
  let n := roundHalfToEvenFrac (q.num * ((10 ^ d : ℕ) : ℤ)) (q.den : ℤ)
  let sign := if n < 0 then "-" else ""
  let m := n.natAbs
  let intStr := natToStr (m / 10 ^ d)
  let fracDigits := (List.range d).map (fun i =>
    digitChar (m / 10 ^ (d - 1 - i) % 10))
  sign ++ intStr ++ (if d = 0 then "" else "." ++ String.mk fracDigits)

/-! ### Gain shift (CurveAnalyze._add_gain, src/main.py:1015) -/

/-- The suffix text computed in _add_gain: "subtracted {-gain:.2f}dB" for a
negative gain, otherwise "added {gain:.2f}dB". -/
def desc_text (gain : ℚ) : String :=
  if gain < 0 then "subtracted " ++ fmtFixed 2 (-gain) ++ "dB"
  else "added " ++ fmtFixed 2 gain ++ "dB"

/-- CurveAnalyze._add_gain: requires at least one selected curve, then returns
deep copies with the gain added to every level and the sign-dependent suffix
appended to each name. -/
def add_gain (selected : List (Curve ℚ)) (gain : ℚ) :
    Except String (List (Curve ℚ)) :=
  if selected.length < 1 then Except.error "No curves selected."
  else Except.ok (selected.map (fun c =>
    { c with
      levels := c.levels.map (· + gain)
      name_suffixes := c.name_suffixes ++ [desc_text gain] }))

/-! ### Smoothing dispatch (CurveAnalyze._smoothen_curves, src/main.py:1197) -/

/-- Modelled from the spec: the four interchangeable signal_tools smoothing
algorithms (missing from src/) are abstracted as tagged invocations carrying
the parameters the dispatcher passes; the spec defines them as pure
(frequencies, levels, params) → series functions. -/
inductive SmoothInvocation where
  | butterworthFast (order : ℕ) (bandwidth resolution : ℤ)
  | rectangularNoInterpolation (bandwidth : ℤ)
  | gaussian (bandwidth resolution : ℤ)
deriving DecidableEq

/-- The recognized smoothing type names, in the order the dispatcher tests
them. -/
def recognizedSmoothingTypes : List String :=
  ["Butterworth 8th, log spaced", "Butterworth 4th, log spaced",
   "Rectangular, w/o interpolation", "Gaussian, log spaced"]

/-- The if/elif dispatch on settings.smoothing_type inside the per-curve loop
of _smoothen_curves; the final else raises NotImplementedError. -/
def smoothing_dispatch (smoothing_type : String) (bandwidth resolution : ℤ) :
    Except String SmoothInvocation :=
  if smoothing_type = "Butterworth 8th, log spaced" then
    Except.ok (SmoothInvocation.butterworthFast 8 bandwidth resolution)
  else if smoothing_type = "Butterworth 4th, log spaced" then
    Except.ok (SmoothInvocation.butterworthFast 4 bandwidth resolution)
  else if smoothing_type = "Rectangular, w/o interpolation" then
    Except.ok (SmoothInvocation.rectangularNoInterpolation bandwidth)
  else if smoothing_type = "Gaussian, log spaced" then
    Except.ok (SmoothInvocation.gaussian bandwidth resolution)
  else Except.error "This smoothing type is not available"

/-- CurveAnalyze._smoothen_curves at invocation granularity: for each selected
curve (keyed by its index) dispatch on the configured smoothing type; the
result records, per curve, the insertion key i+1 and the algorithm invoked.
An unrecognized type raises on the first processed curve. -/
def smoothen_curves (smoothing_type : String) (bandwidth resolution : ℤ) :
    List (ℕ × Curve ℚ) → Except String (List (ℕ × SmoothInvocation))
  | [] => Except.ok []
  | ic :: rest =>
    match smoothing_dispatch smoothing_type bandwidth resolution with
    | Except.error e => Except.error e
    | Except.ok inv =>
      match smoothen_curves smoothing_type bandwidth resolution rest with
      | Except.error e => Except.error e
      | Except.ok out => Except.ok ((ic.1 + 1, inv) :: out)

/-! ### Log-frequency interpolation and curve import (src/main.py:582) -/

/-- Modelled from the spec: linear interpolation of the level values against
the logarithm of frequency, with edge clamping outside the input span (no
extrapolation).  At a point of the input grid this returns that point's level
exactly. -/
noncomputable def interpLogAt : List (ℚ × ℚ) → ℝ → ℝ
  | [], _ => 0
  | [(_, l0)], _ => (l0 : ℝ)
  | (f0, l0) :: (f1, l1) :: rest, f =>
    if f ≤ (f0 : ℚ) then (l0 : ℝ)
    else if f ≤ (f1 : ℚ) then
      (l0 : ℝ) + ((l1 : ℝ) - (l0 : ℝ)) *
        (Real.log f - Real.log (f0 : ℚ)) / (Real.log (f1 : ℚ) - Real.log (f0 : ℚ))
    else interpLogAt ((f1, l1) :: rest) f

/-- Modelled from the spec: signal_tools.interpolate_to_ppo (missing from
src/).  Builds a log-spaced grid spanning [min f, max f] with ppo points per
octave, phase-anchored at must_contain_hz when that frequency lies within
range (so that one grid point equals it), then interpolates the levels
linearly in log-frequency.  Grid points outside the input span are not
produced. -/
noncomputable def interpolate_to_ppo (freqs levels : List ℚ) (ppo : ℤ)
    (must_contain_hz : ℚ) : List ℝ × List ℝ :=
  match freqs with
  | [] => ([], [])
  | f0 :: rest =>
    let fmin := f0
    let fmax := (f0 :: rest).getLastD f0
    let anchor : ℝ := if fmin ≤ must_contain_hz ∧ must_contain_hz ≤ fmax
      then (must_contain_hz : ℝ) else (fmin : ℝ)
    let kmin : ℤ := ⌈(ppo : ℝ) * Real.logb 2 ((fmin : ℝ) / anchor)⌉
    let kmax : ℤ := ⌊(ppo : ℝ) * Real.logb 2 ((fmax : ℝ) / anchor)⌋
    let grid : List ℝ := (List.range (kmax - kmin + 1).toNat).map (fun j =>
      anchor * (2 : ℝ) ^ (((kmin + (j : ℤ) : ℤ) : ℝ) / (ppo : ℝ)))
    (grid, grid.map (interpLogAt (freqs.zip levels)))

/-- The series transformation performed by CurveAnalyze.import_single_curve:
only under the caller-side check settings.import_ppo > 0 is the curve's series
replaced by its interpolation; otherwise it is left exactly as imported. -/
noncomputable def import_single_curve_series (import_ppo : ℤ)
    (must_contain_hz : ℚ) (freqs levels : List ℚ) : List ℝ × List ℝ :=
  if import_ppo > 0 then
    interpolate_to_ppo freqs levels import_ppo must_contain_hz
  else (freqs.map (fun x => (x : ℝ)), levels.map (fun x => (x : ℝ)))

/-! ### Longest-common-substring naming heuristic
(find_longest_match_in_name, src/main.py:168) -/

/-- Length of the common prefix of two character lists. -/
def commonPrefixLen : List Char → List Char → ℕ
  | a :: as, b :: bs => if a = b then commonPrefixLen as bs + 1 else 0
  | _, _ => 0

/-- Models difflib.SequenceMatcher(None, a, b).find_longest_match(0, len a,
0, len b) for short strings (no junk, autojunk inactive below 200
characters): the longest contiguous matching block (start in a, start in b,
size), preferring the earliest start in a and then the earliest start in b
among maximal blocks. -/
def findLongestMatch (a b : List Char) : ℕ × ℕ × ℕ :=
  (List.range a.length).foldl (fun best i =>
    (List.range b.length).foldl (fun best j =>
      let k := commonPrefixLen (a.drop i) (b.drop j)
      if best.2.2 < k then (i, j, k) else best) best) (0, 0, 0)

/-- The matching substring of one pair of names: the slice
string1[match.a : match.a + match.size]. -/
def matchingSubstring (s1 s2 : String) : String :=
  let m := findLongestMatch s1.data s2.data
  String.mk ((s1.data.drop m.1).take m.2.2)

/-- One update of the substring_counts dictionary: increment an existing
key in place, or append a new key with count 1 (Python dicts preserve
insertion order). -/
def tallyInsert (tally : List (String × ℕ)) (key : String) :
    List (String × ℕ) :=
  if tally.any (fun p => p.1 = key) then
    tally.map (fun p => if p.1 = key then (p.1, p.2 + 1) else p)
  else tally ++ [(key, 1)]

/-- The ordered pairs (names[i], names[j]) for i < j, in the loop order of
find_longest_match_in_name. -/
def pairsOf (names : List String) : List (String × String) :=
  (List.range names.length).flatMap (fun i =>
    ((List.range names.length).drop (i + 1)).map (fun j =>
      (names.getD i "", names.getD j "")))

/-- The substring_counts dictionary after both loops. -/
def substringCounts (names : List String) : List (String × ℕ) :=
  (pairsOf names).foldl
    (fun tally p => tallyInsert tally (matchingSubstring p.1 p.2)) []

/-- Python max(d, key=d.get): the first key attaining the maximal count in
insertion order; fails (ValueError) on an empty dictionary, modelled as
none. -/
def maxKey : List (String × ℕ) → Option String
  | [] => none
  | p :: rest =>
    some ((rest.foldl (fun best q => if best.2 < q.2 then q else best) p).1)

/-- Python str.strip(c): remove every leading and trailing occurrence of the
character c. -/
def pyStrip (c : Char) (s : List Char) : List Char :=
  ((s.dropWhile (· == c)).reverse.dropWhile (· == c)).reverse

/-- The final loop of find_longest_match_in_name: strip each character of the
string " - - " in turn (space, hyphen, space, hyphen, space). -/
def stripSeparators (s : String) : String :=
  String.mk (" - - ".data.foldl (fun acc c => pyStrip c acc) s.data)

/-- find_longest_match_in_name (src/main.py:168): tally the single longest
contiguous match of every unordered pair of names, take the most frequently
occurring matching substring (first key on ties), and strip leading/trailing
space/hyphen separators.  Python raises ValueError when no pair exists
(fewer than two names), modelled as none. -/
def find_longest_match_in_name (names : List String) : Option String :=
  (maxKey (substringCounts names)).map stripSeparators

/-! ### Reference-curve toggle (CurveAnalyze.reference_curve_status_toggle,
src/main.py:770) -/

/-- Mark the curve at position i as the reference: add the "reference" name
suffix and set the flag (the mutation performed in the checked branch). -/
def setRefAt : ℕ → List (Curve ℚ) → List (Curve ℚ)
  | _, [] => []
  | 0, c :: t => set_reference (add_name_suffix c "reference") true :: t
  | n + 1, c :: t => c :: setRefAt n t

/-- Revert the curve at position i: remove the first "reference" suffix and
clear the flag (the mutation performed in the unchecked branch). -/
def clearRefAt : ℕ → List (Curve ℚ) → List (Curve ℚ)
  | _, [] => []
  | 0, c :: t => set_reference (remove_name_suffix c "reference") false :: t
  | n + 1, c :: t => c :: clearRefAt n t

/-- Positions of the curves whose is_reference flag is set, counting from n
(the list comprehension over enumerate(self.curves)). -/
def refIndexesFrom (n : ℕ) : List (Curve ℚ) → List ℕ
  | [] => []
  | c :: t =>
    if c.is_reference then n :: refIndexesFrom (n + 1) t
    else refIndexesFrom (n + 1) t

/-- Number of curves currently flagged as reference; the collection invariant
is countRefs ≤ 1. -/
def countRefs (curves : List (Curve ℚ)) : ℕ :=
  (curves.filter (fun c => c.is_reference)).length

/-- CurveAnalyze.reference_curve_status_toggle on the curve list (GUI widget
and plot bookkeeping omitted).  Checked: with exactly one selected curve mark
it as reference, otherwise reject the toggle and leave every flag unchanged.
Unchecked: find the reference curves; none is a no-op, more than one raises
ValueError, exactly one is reverted. -/
def reference_curve_status_toggle (checked : Bool) (selected : List ℕ)
    (curves : List (Curve ℚ)) : Except String (List (Curve ℚ)) :=
  if checked then
    match selected with
    | [i] => Except.ok (setRefAt i curves)
    | _ => Except.ok curves
  else
    match refIndexesFrom 0 curves with
    | [] => Except.ok curves
    | [i] => Except.ok (clearRefAt i curves)
    | _ :: _ :: _ =>
      Except.error "Multiple reference curves are in the list somehow.."

/-! ### Best-fit residual weighting (CurveAnalyze._show_best_fits,
src/main.py:1140) -/

/-- The critical frequency columns: those sampled frequencies f with
range_start ≤ f < range_end. -/
def criticalColumns (cols : List ℚ) (range_start range_end : ℚ) : List ℚ :=
  cols.filter (fun f => decide (range_start ≤ f) && decide (f < range_end))

/-- The weighing normalizer (N + C·(w−1))/N for N columns of which C are
critical with weight w. -/
def weighingNormalizer (n c : ℕ) (w : ℚ) : ℚ :=
  ((n : ℚ) + (c : ℚ) * (w - 1)) / (n : ℚ)

/-- The weighting step of _show_best_fits exactly as the source executes it:
when the critical band contains at least one column, the expression
df[critical_columns].apply(lambda x: x * weighing_critical) is evaluated on a
copy and its result is discarded, so the only effective change is
df = df / weighing_normalizer, applied to every cell (missing cells are NaN
residuals and stay missing).  When the band is empty the table is returned
unchanged (warning logged). -/
def apply_weighting (cols : List ℚ) (range_start range_end : ℚ) (w : ℚ)
    (table : List (List (Option ℚ))) : List (List (Option ℚ)) :=
  let critical := criticalColumns cols range_start range_end
  if critical.isEmpty then table
  else
    let normalizer := weighingNormalizer cols.length critical.length w
    table.map (fun row => row.map (fun x => x.map (· / normalizer)))

/-- The weighting step as the specification describes it: each squared
residual in a critical column is multiplied by the configured weight, and the
whole table is divided by the normalizer so the total weighting is
preserved. -/
def apply_weighting_as_specified (cols : List ℚ) (range_start range_end : ℚ)
    (w : ℚ) (table : List (List (Option ℚ))) : List (List (Option ℚ)) :=
  let critical := criticalColumns cols range_start range_end
  if critical.isEmpty then table
  else
    let normalizer := weighingNormalizer cols.length critical.length w
    table.map (fun row => (cols.zip row).map (fun fv =>
      if decide (range_start ≤ fv.1) && decide (fv.1 < range_end) then
        fv.2.map (fun x => x * w / normalizer)
      else fv.2.map (fun x => x / normalizer)))

/-- The per-curve unbiased variance of weighted residuals: the row sum with
missing cells skipped, divided by N − 1 where N is the number of frequency
columns. -/
def unbiasedVarianceRow (n : ℕ) (row : List (Option ℚ)) : ℚ :=
  (row.filterMap id).sum / ((n : ℚ) - 1)

/-! ### IQR outlier analysis (CurveAnalyze._outlier_detection,
src/main.py:1065) and curve summation (_curve_summation, src/main.py:958) -/

/-- The common frequency grid used to align several curves: the sorted union
of their frequency values. -/
def commonGrid (fss : List (List ℚ)) : List ℚ :=
  (fss.flatten.mergeSort (fun a b => decide (a ≤ b))).dedup

/-- Modelled from the spec: per-curve alignment onto a common grid by
log-frequency linear interpolation. -/
noncomputable def alignedLevels (c : Curve ℚ) (grid : List ℚ) : List ℝ :=
  grid.map (fun f => interpLogAt (c.freqs.zip c.levels) (f : ℝ))

/-- Sorted copy of a list of real values. -/
noncomputable def sortedVals (xs : List ℝ) : List ℝ :=
  xs.mergeSort (fun a b => decide (a ≤ b))

/-- Median of a list of real values (mean of the two middle elements for an
even count). -/
noncomputable def medianR (xs : List ℝ) : ℝ :=
  let s := sortedVals xs
  let n := s.length
  if n % 2 = 1 then s.getD (n / 2) 0
  else (s.getD (n / 2 - 1) 0 + s.getD (n / 2) 0) / 2

/-- Quantile of a list of real values with linear interpolation between order
statistics (numpy's default method); the spec fixes only that Q1 and Q3 are
computed. -/
noncomputable def quantileR (xs : List ℝ) (q : ℚ) : ℝ :=
  let s := sortedVals xs
  let n := s.length
  let pos : ℚ := q * ((n : ℚ) - 1)
  let i := (⌊pos⌋).toNat
  let frac : ℚ := pos - (⌊pos⌋ : ℚ)
  s.getD i 0 + (frac : ℝ) * (s.getD (min (i + 1) (n - 1)) 0 - s.getD i 0)

/-- Modelled from the spec: signal_tools.iqr_analysis (missing from src/).
All curves are aligned onto a common grid restricted to [f_min, f_max]; per
frequency point the median, Q1 and Q3 are computed and the fences are
median ± fence · (Q3 − Q1); a curve is an outlier when any of its aligned
points falls outside the fences.  Returns the median, lower-fence and
upper-fence series on the common grid together with the keys of the outlier
curves. -/
noncomputable def iqr_analysis (curves : List (ℕ × Curve ℚ)) (fence : ℚ)
    (f_min f_max : ℚ) :
    (List ℚ × List ℝ) × (List ℚ × List ℝ) × (List ℚ × List ℝ) × List ℕ :=
  let grid := (commonGrid (curves.map (fun ic => ic.2.freqs))).filter
    (fun f => decide (f_min ≤ f) && decide (f ≤ f_max))
  let valsAt : ℚ → List ℝ := fun f =>
    curves.map (fun ic => interpLogAt (ic.2.freqs.zip ic.2.levels) (f : ℝ))
  let med : ℚ → ℝ := fun f => medianR (valsAt f)
  let q1 : ℚ → ℝ := fun f => quantileR (valsAt f) (mkRat 1 4)
  let q3 : ℚ → ℝ := fun f => quantileR (valsAt f) (mkRat 3 4)
  let lower : ℚ → ℝ := fun f => med f - (fence : ℝ) * (q3 f - q1 f)
  let upper : ℚ → ℝ := fun f => med f + (fence : ℝ) * (q3 f - q1 f)
  let outliers := (curves.filter (fun ic => grid.any (fun f =>
    let v := interpLogAt (ic.2.freqs.zip ic.2.levels) (f : ℝ)
    decide (v < lower f) || decide (upper f < v)))).map (fun ic => ic.1)
  ((grid, grid.map med), (grid, grid.map lower), (grid, grid.map upper),
    outliers)

/-- Build one derived result curve from a series, a base name and one
suffix. -/
def mkResultCurve (xy : List ℚ × List ℝ) (base suffix : String) : Curve ℝ :=
  { name_pfx := "", name_base := base, name_suffixes := [suffix],
    visible := true, is_reference := false, freqs := xy.1, levels := xy.2 }

/-- CurveAnalyze._outlier_detection: fewer than 3 selected curves raises the
insufficient-count error and yields no result curves; otherwise iqr_analysis
runs and the median, lower-fence and upper-fence curves are produced, named
by the common-substring heuristic with the descriptive suffixes of the
source; with outlier action "Hide" or "Remove" and a non-empty outlier set an
extra suffix is recorded (the hiding/removal itself acts on the GUI
collection and is outside this model). -/
noncomputable def outlier_detection (selected : List (ℕ × Curve ℚ))
    (fence : ℚ) (f_min f_max : ℚ) (action : String) :
    Except String (List (Curve ℝ)) :=
  if selected.length < 3 then
    Except.error "A minimum of 3 curves is needed for this analysis."
  else
    let r := iqr_analysis selected fence f_min f_max
    let n := selected.length
    let rep := (find_longest_match_in_name
      (selected.map (fun ic => base_name_and_suffixes ic.2))).getD ""
    let curve_median := mkResultCurve r.1 rep
      ("median, " ++ natToStr n ++ " curves")
    let lower_fence := mkResultCurve r.2.1 rep
      ("-" ++ fmtFixed 1 fence ++ "xIQR, " ++ natToStr n ++ " curves")
    let upper_fence := mkResultCurve r.2.2.1 rep
      ("+" ++ fmtFixed 1 fence ++ "xIQR, " ++ natToStr n ++ " curves")
    let outliers := r.2.2.2
    let results := [curve_median, lower_fence, upper_fence]
    if action = "Hide" ∧ outliers ≠ [] then
      Except.ok (results.map
        (fun c => add_name_suffix c "calculated before hiding outliers"))
    else if action = "Remove" ∧ outliers ≠ [] then
      Except.ok (results.map
        (fun c => add_name_suffix c "calculated before removing outliers"))
    else Except.ok results

/-- Modelled from the spec: signal_tools.curve_summation (missing from src/).
Both curves are aligned onto the union grid by log-frequency interpolation;
the sum and difference series are the elementwise sum and difference of the
aligned levels. -/
noncomputable def curve_summation (c1 c2 : Curve ℚ) :
    (List ℚ × List ℝ) × (List ℚ × List ℝ) :=
  let grid := commonGrid [c1.freqs, c2.freqs]
  let a1 := alignedLevels c1 grid
  let a2 := alignedLevels c2 grid
  ((grid, List.zipWith (· + ·) a1 a2), (grid, List.zipWith (· - ·) a1 a2))

/-- CurveAnalyze._curve_summation: any selection whose length differs from 2
raises the human-readable error and yields nothing; with exactly two curves
the sum and difference curves are produced (each one only when the
corresponding settings flag selects it), named by the common-substring
heuristic plus the "sum"/"difference" suffix. -/
noncomputable def curve_summation_op (selected : List (Curve ℚ))
    (sum_selected diff_selected : Bool) : Except String (List (Curve ℝ)) :=
  if selected.length ≠ 2 then
    Except.error
      "Summation operations can be done only when two curves are selected."
  else
    match selected with
    | [c1, c2] =>
      let r := curve_summation c1 c2
      let rep := (find_longest_match_in_name
        [base_name_and_suffixes c1, base_name_and_suffixes c2]).getD ""
      let curves_sum := mkResultCurve r.1 rep "sum"
      let curves_diff := mkResultCurve r.2 rep "difference"
      Except.ok ((if sum_selected then [curves_sum] else []) ++
        (if diff_selected then [curves_diff] else []))
    | _ =>
      Except.error
        "Summation operations can be done only when two curves are selected."

/-! ### Curve reordering (CurveAnalyze._move_curve_up and move_to_top,
src/main.py:453 and 500) -/

/-- One iteration of the _move_curve_up loop on a list: raise IndexError
(none) when the item would move down (i_before < i_after) or when i_before is
out of range, otherwise pop the element at i_before and insert it at
i_after. -/
def popInsert (l : List α) (iBefore iAfter : ℕ) : Option (List α) :=
  if iBefore < iAfter then none
  else
    match l[iBefore]? with
    | none => none
    | some x => some (List.insertIdx iAfter x (l.eraseIdx iBefore))

/-- The _move_curve_up loop: the selected indices (ascending) are processed in
order; the k-th one is popped from its original position and re-inserted at
i_insert + k.  The identical sequence of pop/insert steps is applied by the
source both to self.curves and to the new_order index list. -/
def moveCurveUpAux (iInsert : ℕ) : List ℕ → ℕ → List α → Option (List α)
  | [], _, l => some l
  | s :: ss, k, l =>
    match popInsert l s (iInsert + k) with
    | none => none
    | some l2 => moveCurveUpAux iInsert ss (k + 1) l2

/-- CurveAnalyze._move_curve_up: transform the curve list and produce the
emitted old-index → new-index mapping dict(zip(new_order, range(N))), where
new_order results from applying the same pop/insert steps to [0, …, N−1]. -/
def move_curve_up (iInsert : ℕ) (sel : List ℕ) (l : List α) :
    Option (List α × List (ℕ × ℕ)) :=
  match moveCurveUpAux iInsert sel 0 l,
    moveCurveUpAux iInsert sel 0 (List.range l.length) with
  | some l2, some ord => some (l2, ord.zip (List.range l.length))
  | _, _ => none

/-- CurveAnalyze.move_to_top: with an empty selection only a bad beep is
emitted (modelled as none), otherwise _move_curve_up with insertion index
0. -/
def move_to_top (sel : List ℕ) (l : List α) :
    Option (List α × List (ℕ × ℕ)) :=
  if sel.isEmpty then none else move_curve_up 0 sel l

/-! ### Sample data for concrete witnesses -/

/-- A plain sample curve. -/
def sampleCurve1 : Curve ℚ := ⟨"#00", "S1", [], true, false, [100, 1000], [1, 2]⟩

/-- A second plain sample curve. -/
def sampleCurve2 : Curve ℚ := ⟨"#01", "S2", [], true, false, [100, 1000], [3, 4]⟩

/-- A third plain sample curve. -/
def sampleCurve3 : Curve ℚ := ⟨"#02", "S3", [], true, false, [100, 1000], [5, 6]⟩

/-- A sample curve already flagged as the reference. -/
def refCurveA : Curve ℚ :=
  ⟨"#00", "A", ["reference"], true, true, [100], [1]⟩

/-- A sample curve not flagged as reference. -/
def plainCurveB : Curve ℚ := ⟨"#01", "B", [], true, false, [100], [2]⟩

/-! ## Theorems -/

/-- C7: for every selection of at least one curve, _add_gain succeeds and
appends to each result curve a name suffix whose text depends on the sign of
the gain: a positive gain g yields "added {g:.2f}dB" and a negative gain g
yields "subtracted {-g:.2f}dB"; in particular +3.0 gives "added 3.00dB" and
-2.5 gives "subtracted 2.50dB".  Each result curve's levels are the original
levels shifted by the gain. -/
theorem add_gain_suffix_sign :
    (∀ (selected : List (Curve ℚ)) (gain : ℚ), 0 < selected.length →
      ∃ res, add_gain selected gain = Except.ok res ∧
        res.length = selected.length ∧
        ∀ i (hi : i < res.length) (hi2 : i < selected.length),
          (res.get ⟨i, hi⟩).name_suffixes
            = (selected.get ⟨i, hi2⟩).name_suffixes ++ [desc_text gain] ∧
          (res.get ⟨i, hi⟩).levels
            = (selected.get ⟨i, hi2⟩).levels.map (· + gain)) ∧
    (∀ gain : ℚ, 0 < gain →
      desc_text gain = "added " ++ fmtFixed 2 gain ++ "dB") ∧
    (∀ gain : ℚ, gain < 0 →
      desc_text gain = "subtracted " ++ fmtFixed 2 (-gain) ++ "dB") ∧
    desc_text 3 = "added 3.00dB" ∧
    desc_text (mkRat (-5) 2) = "subtracted 2.50dB" := by
  refine ⟨?_, ?_, ?_, by decide, by decide⟩
  · intro selected gain h
    refine ⟨selected.map (fun c =>
      { c with
        levels := c.levels.map (· + gain)
        name_suffixes := c.name_suffixes ++ [desc_text gain] }), ?_, ?_, ?_⟩
    · unfold add_gain
      rw [if_neg (by omega)]
    · exact selected.length_map _
    · intro i hi hi2
      constructor
      · simp
      · simp
  · intro gain h
    unfold desc_text
    rw [if_neg (by exact not_lt.mpr (le_of_lt h))]
  · intro gain h
    unfold desc_text
    rw [if_pos h]

/-- Witness for C7 at a concrete input: one selected curve, gain +3. -/
theorem add_gain_suffix_sign_witness :
    0 < [sampleCurve1].length ∧
    (∃ res, add_gain [sampleCurve1] 3 = Except.ok res ∧
      res.length = [sampleCurve1].length ∧
      ∀ i (hi : i < res.length) (hi2 : i < [sampleCurve1].length),
        (res.get ⟨i, hi⟩).name_suffixes
          = ([sampleCurve1].get ⟨i, hi2⟩).name_suffixes ++ [desc_text 3] ∧
        (res.get ⟨i, hi⟩).levels
          = ([sampleCurve1].get ⟨i, hi2⟩).levels.map (· + 3)) ∧
    desc_text 3 = "added 3.00dB" :=
  ⟨by decide, add_gain_suffix_sign.1 [sampleCurve1] 3 (by decide),
    add_gain_suffix_sign.2.2.2.1⟩

/-- C8: when the configured import ppo is ≤ 0, the curve series imported by
import_single_curve is left exactly unchanged: the interpolate call is only
made under the caller-side check ppo > 0. -/
theorem import_ppo_nonpositive_passthrough (import_ppo : ℤ)
    (must_contain_hz : ℚ) (freqs levels : List ℚ)
    (h : import_ppo ≤ 0) :
    import_single_curve_series import_ppo must_contain_hz freqs levels
      = (freqs.map (fun x => (x : ℝ)), levels.map (fun x => (x : ℝ))) := by
  unfold import_single_curve_series
  rw [if_neg (by omega)]

/-- Witness for C8 at a concrete input: ppo = 0 leaves the series as is. -/
theorem import_ppo_nonpositive_passthrough_witness :
    (0 : ℤ) ≤ 0 ∧
    import_single_curve_series 0 1000 [100, 200] [1, 2]
      = ([100, 200].map (fun x : ℚ => (x : ℝ)),
         [1, 2].map (fun x : ℚ => (x : ℝ))) :=
  ⟨le_refl 0, import_ppo_nonpositive_passthrough 0 1000 [100, 200] [1, 2]
    (le_refl 0)⟩

/-- A recognized smoothing type makes the dispatcher return some
invocation. -/
theorem dispatch_ok_of_mem (t : String) (b r : ℤ)
    (h : t ∈ recognizedSmoothingTypes) :
    ∃ inv, smoothing_dispatch t b r = Except.ok inv := by
  simp only [recognizedSmoothingTypes, List.mem_cons, List.mem_singleton,
    List.not_mem_nil, or_false] at h
  rcases h with h | h | h | h <;> subst h
  · exact ⟨SmoothInvocation.butterworthFast 8 b r, by simp [smoothing_dispatch]⟩
  · exact ⟨SmoothInvocation.butterworthFast 4 b r, by simp [smoothing_dispatch]⟩
  · exact ⟨SmoothInvocation.rectangularNoInterpolation b,
      by simp [smoothing_dispatch]⟩
  · exact ⟨SmoothInvocation.gaussian b r, by simp [smoothing_dispatch]⟩

/-- An unrecognized smoothing type makes the dispatcher raise the
NotImplementedError message. -/
theorem dispatch_error_of_not_mem (t : String) (b r : ℤ)
    (h : t ∉ recognizedSmoothingTypes) :
    smoothing_dispatch t b r
      = Except.error "This smoothing type is not available" := by
  simp only [recognizedSmoothingTypes, List.mem_cons, List.mem_singleton,
    List.not_mem_nil, or_false, not_or] at h
  obtain ⟨h1, h2, h3, h4⟩ := h
  simp [smoothing_dispatch, h1, h2, h3, h4]

/-- With a successful dispatch, the per-curve loop processes every selected
curve with that one invocation. -/
theorem smoothen_curves_ok (t : String) (b r : ℤ) (inv : SmoothInvocation)
    (h : smoothing_dispatch t b r = Except.ok inv) :
    ∀ selected : List (ℕ × Curve ℚ),
      smoothen_curves t b r selected
        = Except.ok (selected.map (fun ic => (ic.1 + 1, inv))) := by
  intro selected
  induction selected with
  | nil => rfl
  | cons ic rest ih => simp [smoothen_curves, h, ih]

/-- C9: the smoothing dispatcher raises the NotImplementedError if and only
if the configured smoothing type is none of the four recognized names; each
recognized type invokes exactly the corresponding algorithm, and the
per-curve loop of _smoothen_curves (over a non-empty selection) raises if and
only if the type is unrecognized. -/
theorem smoothing_type_exhaustive_dispatch :
    (∀ (t : String) (b r : ℤ),
      (∃ e, smoothing_dispatch t b r = Except.error e)
        ↔ t ∉ recognizedSmoothingTypes) ∧
    (∀ b r : ℤ,
      smoothing_dispatch "Butterworth 8th, log spaced" b r
        = Except.ok (SmoothInvocation.butterworthFast 8 b r) ∧
      smoothing_dispatch "Butterworth 4th, log spaced" b r
        = Except.ok (SmoothInvocation.butterworthFast 4 b r) ∧
      smoothing_dispatch "Rectangular, w/o interpolation" b r
        = Except.ok (SmoothInvocation.rectangularNoInterpolation b) ∧
      smoothing_dispatch "Gaussian, log spaced" b r
        = Except.ok (SmoothInvocation.gaussian b r)) ∧
    (∀ (t : String) (b r : ℤ) (selected : List (ℕ × Curve ℚ)),
      selected ≠ [] →
      ((∃ e, smoothen_curves t b r selected = Except.error e)
        ↔ t ∉ recognizedSmoothingTypes)) := by
  refine ⟨?_, ?_, ?_⟩
  · intro t b r
    constructor
    · rintro ⟨e, he⟩ hmem
      obtain ⟨inv, hinv⟩ := dispatch_ok_of_mem t b r hmem
      rw [hinv] at he
      exact Except.noConfusion he
    · intro hmem
      exact ⟨_, dispatch_error_of_not_mem t b r hmem⟩
  · intro b r
    refine ⟨by simp [smoothing_dispatch], by simp [smoothing_dispatch],
      by simp [smoothing_dispatch], by simp [smoothing_dispatch]⟩
  · intro t b r selected hne
    constructor
    · rintro ⟨e, he⟩ hmem
      obtain ⟨inv, hinv⟩ := dispatch_ok_of_mem t b r hmem
      rw [smoothen_curves_ok t b r inv hinv selected] at he
      exact Except.noConfusion he
    · intro hmem
      match selected, hne with
      | ic :: rest, _ =>
        refine ⟨"This smoothing type is not available", ?_⟩
        simp [smoothen_curves, dispatch_error_of_not_mem t b r hmem]

/-- Witness for C9 at concrete inputs: an unrecognized type over a singleton
selection raises; a recognized type does not. -/
theorem smoothing_type_exhaustive_dispatch_witness :
    ([((0 : ℕ), sampleCurve1)] ≠ ([] : List (ℕ × Curve ℚ))) ∧
    ((∃ e, smoothen_curves "bogus" 6 96 [((0 : ℕ), sampleCurve1)]
        = Except.error e) ↔ "bogus" ∉ recognizedSmoothingTypes) ∧
    ((∃ e, smoothen_curves "Gaussian, log spaced" 6 96
        [((0 : ℕ), sampleCurve1)] = Except.error e)
      ↔ "Gaussian, log spaced" ∉ recognizedSmoothingTypes) :=
  ⟨List.cons_ne_nil _ _,
    smoothing_type_exhaustive_dispatch.2.2 "bogus" 6 96 _
      (List.cons_ne_nil _ _),
    smoothing_type_exhaustive_dispatch.2.2 "Gaussian, log spaced" 6 96 _
      (List.cons_ne_nil _ _)⟩

/-- set_reference writes the reference flag. -/
theorem is_reference_set_reference (c : Curve α) (b : Bool) :
    (set_reference c b).is_reference = b := rfl

/-- add_name_suffix leaves the reference flag alone. -/
theorem is_reference_add_name_suffix (c : Curve α) (s : String) :
    (add_name_suffix c s).is_reference = c.is_reference := rfl

/-- remove_name_suffix leaves the reference flag alone. -/
theorem is_reference_remove_name_suffix (c : Curve α) (s : String) :
    (remove_name_suffix c s).is_reference = c.is_reference := rfl

/-- Counting reference flags through a cons cell. -/
theorem countRefs_cons (c : Curve ℚ) (t : List (Curve ℚ)) :
    countRefs (c :: t)
      = (if c.is_reference then 1 else 0) + countRefs t := by
  simp only [countRefs, List.filter_cons]
  split <;> simp [List.length_cons, Nat.add_comm]

/-- Marking one curve as reference adds at most one reference flag. -/
theorem countRefs_setRefAt_le (i : ℕ) (l : List (Curve ℚ)) :
    countRefs (setRefAt i l) ≤ countRefs l + 1 := by
  induction l generalizing i with
  | nil => simp [setRefAt]
  | cons c t ih =>
    cases i with
    | zero =>
      simp only [setRefAt, countRefs_cons, is_reference_set_reference,
        if_true]
      split <;> omega
    | succ n =>
      simp only [setRefAt, countRefs_cons]
      have := ih n
      omega

/-- Reverting one curve never increases the number of reference flags. -/
theorem countRefs_clearRefAt_le (i : ℕ) (l : List (Curve ℚ)) :
    countRefs (clearRefAt i l) ≤ countRefs l := by
  induction l generalizing i with
  | nil => simp [clearRefAt]
  | cons c t ih =>
    cases i with
    | zero =>
      simp [clearRefAt, countRefs_cons, is_reference_set_reference]
    | succ n =>
      simp only [clearRefAt, countRefs_cons]
      have := ih n
      omega

/-- The enumerate-filter list of reference positions has one entry per
flagged curve. -/
theorem refIndexesFrom_length (l : List (Curve ℚ)) :
    ∀ n, (refIndexesFrom n l).length = countRefs l := by
  induction l with
  | nil => intro n; simp [refIndexesFrom, countRefs]
  | cons c t ih =>
    intro n
    simp only [refIndexesFrom, countRefs_cons]
    split <;> simp [ih, Nat.add_comm]

/-- C6 counterexample: from a state satisfying the at-most-one invariant
(one reference curve present) the set-toggle with a singleton selection of a
different curve succeeds and produces two reference curves, so the toggle
does not preserve the invariant from every invariant-satisfying state. -/
theorem reference_toggle_invariant_counterexample :
    countRefs [refCurveA, plainCurveB] ≤ 1 ∧
    reference_curve_status_toggle true [1] [refCurveA, plainCurveB]
      = Except.ok [refCurveA,
          set_reference (add_name_suffix plainCurveB "reference") true] ∧
    ¬ (countRefs [refCurveA,
        set_reference (add_name_suffix plainCurveB "reference") true]
        ≤ 1) :=
  ⟨by decide, rfl, by decide⟩

/-- C6 (amended): the set-toggle is rejected with no flag change whenever the
selection is not exactly one curve; with exactly one selected curve it
preserves the at-most-one invariant provided no curve is currently the
reference (the state a set-toggle starts from); the clear-toggle always
preserves the invariant, and with more than one reference curve present it
raises the corruption error instead of recovering. -/
theorem reference_toggle_invariant_amended :
    (∀ (selected : List ℕ) (curves : List (Curve ℚ)),
      selected.length ≠ 1 →
      reference_curve_status_toggle true selected curves
        = Except.ok curves) ∧
    (∀ (selected : List ℕ) (curves res : List (Curve ℚ)),
      countRefs curves = 0 →
      reference_curve_status_toggle true selected curves = Except.ok res →
      countRefs res ≤ 1) ∧
    (∀ (selected : List ℕ) (curves : List (Curve ℚ)),
      countRefs curves ≤ 1 →
      ∃ res, reference_curve_status_toggle false selected curves
          = Except.ok res ∧ countRefs res ≤ 1) ∧
    (∀ (selected : List ℕ) (curves : List (Curve ℚ)),
      2 ≤ countRefs curves →
      ∃ e, reference_curve_status_toggle false selected curves
          = Except.error e) := by
  refine ⟨?_, ?_, ?_, ?_⟩
  · intro selected curves h
    match selected, h with
    | [], _ => rfl
    | _ :: _ :: _, _ => rfl
    | [i], h => exact absurd rfl h
  · intro selected curves res h0 htog
    match selected with
    | [i] =>
      simp only [reference_curve_status_toggle, if_pos] at htog
      cases htog
      have := countRefs_setRefAt_le i curves
      omega
    | [] =>
      simp only [reference_curve_status_toggle, if_pos] at htog
      cases htog
      omega
    | _ :: _ :: _ =>
      simp only [reference_curve_status_toggle, if_pos] at htog
      cases htog
      omega
  · intro selected curves h
    have hlen := refIndexesFrom_length curves 0
    simp only [reference_curve_status_toggle, Bool.false_eq_true,
      if_neg, if_false]
    cases href : refIndexesFrom 0 curves with
    | nil => exact ⟨curves, rfl, h⟩
    | cons i rest =>
      cases rest with
      | nil =>
        exact ⟨clearRefAt i curves, rfl,
          le_trans (countRefs_clearRefAt_le i curves) h⟩
      | cons j rest2 =>
        rw [href] at hlen
        simp at hlen
        omega
  · intro selected curves h
    have hlen := refIndexesFrom_length curves 0
    simp only [reference_curve_status_toggle, Bool.false_eq_true,
      if_neg, if_false]
    cases href : refIndexesFrom 0 curves with
    | nil =>
      rw [href] at hlen
      simp at hlen
      omega
    | cons i rest =>
      cases rest with
      | nil =>
        rw [href] at hlen
        simp at hlen
        omega
      | cons j rest2 =>
        exact ⟨"Multiple reference curves are in the list somehow..", rfl⟩

/-- Witness for C6 (amended) at concrete inputs: a clear-toggle on a
one-reference state succeeds and keeps the invariant; a set-toggle with a
two-curve selection is rejected unchanged. -/
theorem reference_toggle_invariant_amended_witness :
    (countRefs [refCurveA, plainCurveB] ≤ 1 ∧
      ∃ res, reference_curve_status_toggle false [] [refCurveA, plainCurveB]
          = Except.ok res ∧ countRefs res ≤ 1) ∧
    (([0, 1] : List ℕ).length ≠ 1 ∧
      reference_curve_status_toggle true [0, 1] [refCurveA, plainCurveB]
        = Except.ok [refCurveA, plainCurveB]) :=
  ⟨⟨by decide,
      reference_toggle_invariant_amended.2.2.1 [] [refCurveA, plainCurveB]
        (by decide)⟩,
    ⟨by decide,
      reference_toggle_invariant_amended.1 [0, 1] [refCurveA, plainCurveB]
        (by decide)⟩⟩

/-- C3 (code bug): the source's weighting step never multiplies the critical
band by the configured weight — the pandas expression
df[critical_columns].apply(...) is evaluated on a copy and discarded — so
every cell, inside or outside the band, is only divided by the normalizer.
On the failing input (columns 100 and 1000 Hz, critical band [200, 5000),
weight 2, residual row [1, 1]) the code yields equal weighted residuals
[2/3, 2/3] where the specified weighting yields [2/3, 4/3]; the in-band
residual therefore carries the same influence as the out-of-band one instead
of weight-times the influence. -/
theorem best_fit_weighting_discards_weight :
    (∀ (cols : List ℚ) (range_start range_end w : ℚ)
      (table : List (List (Option ℚ))),
      apply_weighting cols range_start range_end w table
        = if (criticalColumns cols range_start range_end).isEmpty then table
          else table.map (fun row => row.map (fun x => x.map
            (· / weighingNormalizer cols.length
              (criticalColumns cols range_start range_end).length w)))) ∧
    apply_weighting [100, 1000] 200 5000 2 [[some 1, some 1]]
      = [[some (mkRat 2 3), some (mkRat 2 3)]] ∧
    apply_weighting_as_specified [100, 1000] 200 5000 2 [[some 1, some 1]]
      = [[some (mkRat 2 3), some (mkRat 4 3)]] ∧
    apply_weighting [100, 1000] 200 5000 2 [[some 1, some 1]]
      ≠ apply_weighting_as_specified [100, 1000] 200 5000 2
          [[some 1, some 1]] := by
  refine ⟨fun cols s e w table => rfl, ?_, ?_, ?_⟩
  · norm_num [apply_weighting, criticalColumns, weighingNormalizer, mkRat,
      Rat.normalize]
  · norm_num [apply_weighting_as_specified, criticalColumns,
      weighingNormalizer, mkRat, Rat.normalize]
  · intro hcon
    have h1 :
        apply_weighting [100, 1000] 200 5000 2 [[some 1, some 1]]
          = [[some (mkRat 2 3), some (mkRat 2 3)]] := by
      norm_num [apply_weighting, criticalColumns, weighingNormalizer, mkRat,
        Rat.normalize]
    have h2 :
        apply_weighting_as_specified [100, 1000] 200 5000 2
            [[some 1, some 1]]
          = [[some (mkRat 2 3), some (mkRat 4 3)]] := by
      norm_num [apply_weighting_as_specified, criticalColumns,
        weighingNormalizer, mkRat, Rat.normalize]
    rw [h1, h2] at hcon
    norm_num [mkRat, Rat.normalize] at hcon

/-- No pair is formed from fewer than two names. -/
theorem pairsOf_short (names : List String) (h : names.length < 2) :
    pairsOf names = [] := by
  match names, h with
  | [], _ => rfl
  | [a], _ => rfl

/-- One tally update never empties the dictionary. -/
theorem tallyInsert_ne_nil (t : List (String × ℕ)) (k : String) :
    tallyInsert t k ≠ [] := by
  unfold tallyInsert
  split
  · cases t with
    | nil => simp_all
    | cons p rest => simp
  · simp

/-- Folding tally updates over pairs keeps the dictionary non-empty as soon
as the accumulator or the pair list is non-empty. -/
theorem foldl_tallyInsert_ne_nil :
    ∀ (ps : List (String × String)) (t : List (String × ℕ)),
      t ≠ [] ∨ ps ≠ [] →
      ps.foldl (fun tally p => tallyInsert tally (matchingSubstring p.1 p.2))
        t ≠ [] := by
  intro ps
  induction ps with
  | nil =>
    intro t h
    rcases h with h | h
    · simpa using h
    · exact absurd rfl h
  | cons p rest ih =>
    intro t _
    exact ih _ (Or.inl (tallyInsert_ne_nil _ _))

/-- With at least two names the pair list is non-empty. -/
theorem pairsOf_ne_nil (names : List String) (h : 2 ≤ names.length) :
    pairsOf names ≠ [] := by
  intro hcon
  unfold pairsOf at hcon
  rw [List.flatMap_eq_nil_iff] at hcon
  have h0 : (0 : ℕ) ∈ List.range names.length :=
    List.mem_range.mpr (by omega)
  have hchunk := hcon 0 h0
  rw [List.map_eq_nil_iff] at hchunk
  have hlen := congrArg List.length hchunk
  simp only [List.length_drop, List.length_range, List.length_nil] at hlen
  omega

/-- The dictionary of pairwise matches is non-empty for at least two
names. -/
theorem substringCounts_ne_nil (names : List String)
    (h : 2 ≤ names.length) : substringCounts names ≠ [] :=
  foldl_tallyInsert_ne_nil (pairsOf names) []
    (Or.inr (pairsOf_ne_nil names h))

/-- The running maximum of the max(d, key=d.get) fold is an element of the
dictionary. -/
theorem foldl_maxStep_mem :
    ∀ (rest : List (String × ℕ)) (p : String × ℕ),
      rest.foldl (fun best q => if best.2 < q.2 then q else best) p
        ∈ p :: rest := by
  intro rest
  induction rest with
  | nil => intro p; simp
  | cons r rest2 ih =>
    intro p
    have h := ih (if p.2 < r.2 then r else p)
    simp only [List.foldl_cons]
    rcases List.mem_cons.mp h with h2 | h2
    · rw [h2]
      split <;> simp
    · simp [List.mem_cons, h2]

/-- The running maximum of the max(d, key=d.get) fold dominates every
count. -/
theorem foldl_maxStep_ge :
    ∀ (rest : List (String × ℕ)) (p q : String × ℕ), q ∈ p :: rest →
      q.2 ≤ (rest.foldl (fun best q2 => if best.2 < q2.2 then q2 else best)
        p).2 := by
  intro rest
  induction rest with
  | nil =>
    intro p q hq
    simp only [List.mem_singleton] at hq
    exact le_of_eq (congrArg Prod.snd hq)
  | cons r rest2 ih =>
    intro p q hq
    simp only [List.foldl_cons]
    have hstep1 : p.2 ≤ (if p.2 < r.2 then r else p).2 := by
      split <;> omega
    have hstep2 : r.2 ≤ (if p.2 < r.2 then r else p).2 := by
      split <;> omega
    rcases List.mem_cons.mp hq with h2 | h2
    · subst h2
      exact le_trans hstep1
        (ih _ _ (List.mem_cons_self _ _))
    · rcases List.mem_cons.mp h2 with h3 | h3
      · subst h3
        exact le_trans hstep2
          (ih _ _ (List.mem_cons_self _ _))
      · exact ih _ _ (List.mem_cons_of_mem _ h3)

/-- maxKey returns a key of the dictionary bearing a maximal count. -/
theorem maxKey_spec (t : List (String × ℕ)) (k : String)
    (h : maxKey t = some k) :
    ∃ cnt, (k, cnt) ∈ t ∧ ∀ q ∈ t, q.2 ≤ cnt := by
  cases t with
  | nil => exact absurd h (by simp [maxKey])
  | cons p rest =>
    simp only [maxKey, Option.some.injEq] at h
    refine ⟨(rest.foldl
      (fun best q => if best.2 < q.2 then q else best) p).2, ?_, ?_⟩
    · rw [← h]
      exact foldl_maxStep_mem rest p
    · exact fun q hq => foldl_maxStep_ge rest p q hq

/-- C10: find_longest_match_in_name fails (the max of an empty tally raises
ValueError, modelled as none) on every list of fewer than two names, and is
total on lists of at least two names. -/
theorem find_longest_match_requires_two_names :
    (∀ names : List String, names.length < 2 →
      find_longest_match_in_name names = none) ∧
    (∀ names : List String, 2 ≤ names.length →
      ∃ s, find_longest_match_in_name names = some s) := by
  constructor
  · intro names h
    unfold find_longest_match_in_name substringCounts
    rw [pairsOf_short names h]
    rfl
  · intro names h
    have hne := substringCounts_ne_nil names h
    unfold find_longest_match_in_name
    cases hsc : substringCounts names with
    | nil => exact absurd hsc hne
    | cons p rest => exact ⟨_, rfl⟩

/-- Witness for C10 at concrete inputs: a singleton list fails, a two-name
list succeeds. -/
theorem find_longest_match_requires_two_names_witness :
    (["solo"].length < 2 ∧ find_longest_match_in_name ["solo"] = none) ∧
    (2 ≤ ["ab", "ac"].length ∧
      ∃ s, find_longest_match_in_name ["ab", "ac"] = some s) :=
  ⟨⟨by decide,
      find_longest_match_requires_two_names.1 ["solo"] (by decide)⟩,
    ⟨by decide,
      find_longest_match_requires_two_names.2 ["ab", "ac"] (by decide)⟩⟩

set_option maxRecDepth 40000 in
/-- C5: whenever find_longest_match_in_name returns a value, that value is a
most frequently occurring pairwise longest-match substring, stripped of
leading/trailing space/hyphen separators; in particular on
["Speaker A - Left", "Speaker A - Right", "Speaker A - Center"] it returns
"Speaker A". -/
theorem find_longest_match_most_common :
    (∀ (names : List String) (s : String),
      find_longest_match_in_name names = some s →
      ∃ key cnt, (key, cnt) ∈ substringCounts names ∧
        s = stripSeparators key ∧
        ∀ q ∈ substringCounts names, q.2 ≤ cnt) ∧
    find_longest_match_in_name
      ["Speaker A - Left", "Speaker A - Right", "Speaker A - Center"]
      = some "Speaker A" := by
  constructor
  · intro names s h
    unfold find_longest_match_in_name at h
    rw [Option.map_eq_some'] at h
    obtain ⟨k, hk, hs⟩ := h
    obtain ⟨cnt, hmem, hmax⟩ := maxKey_spec _ _ hk
    exact ⟨k, cnt, hmem, hs.symm, hmax⟩
  · decide

/-- Witness for C5: the general maximality statement applied to the concrete
three-name input. -/
theorem find_longest_match_most_common_witness :
    ∃ key cnt,
      (key, cnt) ∈ substringCounts
        ["Speaker A - Left", "Speaker A - Right", "Speaker A - Center"] ∧
      "Speaker A" = stripSeparators key ∧
      ∀ q ∈ substringCounts
        ["Speaker A - Left", "Speaker A - Right", "Speaker A - Center"],
        q.2 ≤ cnt :=
  find_longest_match_most_common.1 _ "Speaker A"
    find_longest_match_most_common.2

/-- C2: _curve_summation raises the human-readable error, producing no
curves, for every selection whose count is not exactly 2; with exactly two
curves it produces the sum and difference curves (each gated by its settings
flag), whose levels are the pointwise sum and difference of the two aligned
level series on the common union grid. -/
theorem curve_summation_count_guard :
    ∀ (selected : List (Curve ℚ)) (sum_selected diff_selected : Bool),
      (selected.length ≠ 2 →
        curve_summation_op selected sum_selected diff_selected
          = Except.error
            "Summation operations can be done only when two curves are selected.") ∧
      (∀ c1 c2, selected = [c1, c2] →
        ∃ s d,
          curve_summation_op selected sum_selected diff_selected
            = Except.ok ((if sum_selected then [s] else []) ++
                (if diff_selected then [d] else [])) ∧
          s.freqs = commonGrid [c1.freqs, c2.freqs] ∧
          d.freqs = commonGrid [c1.freqs, c2.freqs] ∧
          s.levels = List.zipWith (· + ·)
            (alignedLevels c1 (commonGrid [c1.freqs, c2.freqs]))
            (alignedLevels c2 (commonGrid [c1.freqs, c2.freqs])) ∧
          d.levels = List.zipWith (· - ·)
            (alignedLevels c1 (commonGrid [c1.freqs, c2.freqs]))
            (alignedLevels c2 (commonGrid [c1.freqs, c2.freqs])) ∧
          s.name_suffixes = ["sum"] ∧ d.name_suffixes = ["difference"]) := by
  intro selected ss ds
  constructor
  · intro h
    unfold curve_summation_op
    rw [if_pos h]
  · rintro c1 c2 rfl
    refine ⟨mkResultCurve (curve_summation c1 c2).1
        ((find_longest_match_in_name
          [base_name_and_suffixes c1, base_name_and_suffixes c2]).getD "")
        "sum",
      mkResultCurve (curve_summation c1 c2).2
        ((find_longest_match_in_name
          [base_name_and_suffixes c1, base_name_and_suffixes c2]).getD "")
        "difference", ?_, rfl, rfl, rfl, rfl, rfl, rfl⟩
    unfold curve_summation_op
    rw [if_neg (by simp)]

/-- Witness for C2 at concrete inputs: one curve raises, two curves
succeed. -/
theorem curve_summation_count_guard_witness :
    (([sampleCurve1] : List (Curve ℚ)).length ≠ 2 ∧
      curve_summation_op [sampleCurve1] true true
        = Except.error
          "Summation operations can be done only when two curves are selected.") ∧
    ∃ s d,
      curve_summation_op [sampleCurve1, sampleCurve2] true true
        = Except.ok ((if true then [s] else []) ++
            (if true then [d] else [])) ∧
      s.freqs = commonGrid [sampleCurve1.freqs, sampleCurve2.freqs] ∧
      d.freqs = commonGrid [sampleCurve1.freqs, sampleCurve2.freqs] ∧
      s.levels = List.zipWith (· + ·)
        (alignedLevels sampleCurve1
          (commonGrid [sampleCurve1.freqs, sampleCurve2.freqs]))
        (alignedLevels sampleCurve2
          (commonGrid [sampleCurve1.freqs, sampleCurve2.freqs])) ∧
      d.levels = List.zipWith (· - ·)
        (alignedLevels sampleCurve1
          (commonGrid [sampleCurve1.freqs, sampleCurve2.freqs]))
        (alignedLevels sampleCurve2
          (commonGrid [sampleCurve1.freqs, sampleCurve2.freqs])) ∧
      s.name_suffixes = ["sum"] ∧ d.name_suffixes = ["difference"] :=
  ⟨⟨by decide,
      (curve_summation_count_guard [sampleCurve1] true true).1 (by decide)⟩,
    (curve_summation_count_guard [sampleCurve1, sampleCurve2] true true).2
      sampleCurve1 sampleCurve2 rfl⟩

/-- C1: _outlier_detection raises the insufficient-count error, producing no
curves, for every selection of fewer than 3 curves; with 3 or more it does
not raise this error and produces exactly the median, lower-fence and
upper-fence curves computed by the IQR analysis. -/
theorem outlier_detection_count_guard :
    ∀ (selected : List (ℕ × Curve ℚ)) (fence f_min f_max : ℚ)
      (action : String),
      (selected.length < 3 →
        outlier_detection selected fence f_min f_max action
          = Except.error
            "A minimum of 3 curves is needed for this analysis.") ∧
      (3 ≤ selected.length →
        ∃ med lo hi,
          outlier_detection selected fence f_min f_max action
            = Except.ok [med, lo, hi] ∧
          med.freqs = (iqr_analysis selected fence f_min f_max).1.1 ∧
          med.levels = (iqr_analysis selected fence f_min f_max).1.2 ∧
          lo.freqs = (iqr_analysis selected fence f_min f_max).2.1.1 ∧
          lo.levels = (iqr_analysis selected fence f_min f_max).2.1.2 ∧
          hi.freqs = (iqr_analysis selected fence f_min f_max).2.2.1.1 ∧
          hi.levels = (iqr_analysis selected fence f_min f_max).2.2.1.2) := by
  intro selected fence f_min f_max action
  constructor
  · intro h
    unfold outlier_detection
    rw [if_pos h]
  · intro h
    unfold outlier_detection
    rw [if_neg (by omega)]
    dsimp only
    split
    · exact ⟨_, _, _, rfl, rfl, rfl, rfl, rfl, rfl, rfl⟩
    · split
      · exact ⟨_, _, _, rfl, rfl, rfl, rfl, rfl, rfl, rfl⟩
      · exact ⟨_, _, _, rfl, rfl, rfl, rfl, rfl, rfl, rfl⟩

/-- Witness for C1 at concrete inputs: two curves raise the insufficient
count error, three curves succeed with the three fence curves. -/
theorem outlier_detection_count_guard_witness :
    (([(0, sampleCurve1), (1, sampleCurve2)] :
        List (ℕ × Curve ℚ)).length < 3 ∧
      outlier_detection [(0, sampleCurve1), (1, sampleCurve2)] 10 20 20000
          "None"
        = Except.error
          "A minimum of 3 curves is needed for this analysis.") ∧
    ∃ med lo hi,
      outlier_detection
          [(0, sampleCurve1), (1, sampleCurve2), (2, sampleCurve3)]
          10 20 20000 "None"
        = Except.ok [med, lo, hi] ∧
      med.freqs = (iqr_analysis
        [(0, sampleCurve1), (1, sampleCurve2), (2, sampleCurve3)]
        10 20 20000).1.1 ∧
      med.levels = (iqr_analysis
        [(0, sampleCurve1), (1, sampleCurve2), (2, sampleCurve3)]
        10 20 20000).1.2 ∧
      lo.freqs = (iqr_analysis
        [(0, sampleCurve1), (1, sampleCurve2), (2, sampleCurve3)]
        10 20 20000).2.1.1 ∧
      lo.levels = (iqr_analysis
        [(0, sampleCurve1), (1, sampleCurve2), (2, sampleCurve3)]
        10 20 20000).2.1.2 ∧
      hi.freqs = (iqr_analysis
        [(0, sampleCurve1), (1, sampleCurve2), (2, sampleCurve3)]
        10 20 20000).2.2.1.1 ∧
      hi.levels = (iqr_analysis
        [(0, sampleCurve1), (1, sampleCurve2), (2, sampleCurve3)]
        10 20 20000).2.2.1.2 :=
  ⟨⟨by decide,
      (outlier_detection_count_guard [(0, sampleCurve1), (1, sampleCurve2)]
        10 20 20000 "None").1 (by decide)⟩,
    (outlier_detection_count_guard
      [(0, sampleCurve1), (1, sampleCurve2), (2, sampleCurve3)]
      10 20 20000 "None").2 (by decide)⟩

/-- eraseIdx skips over a left append factor when the index lies beyond
it. -/
theorem eraseIdx_append_right_local :
    ∀ (l1 l2 : List α) (n : ℕ), l1.length ≤ n →
      (l1 ++ l2).eraseIdx n = l1 ++ l2.eraseIdx (n - l1.length) := by
  intro l1
  induction l1 with
  | nil => intro l2 n h; simp
  | cons a t ih =>
    intro l2 n h
    cases n with
    | zero => simp at h
    | succ m =>
      simp only [List.cons_append, List.eraseIdx_cons_succ, List.length_cons,
        Nat.succ_eq_add_one]
      rw [ih l2 m (by simpa using h)]
      have harith : m - t.length = m + 1 - (t.length + 1) := by omega
      rw [harith]

/-- insertIdx at the boundary of an append inserts between the two parts. -/
theorem insertIdx_append_self :
    ∀ (l1 l2 : List α) (x : α),
      List.insertIdx l1.length x (l1 ++ l2) = l1 ++ x :: l2 := by
  intro l1
  induction l1 with
  | nil => intro l2 x; rfl
  | cons a t ih =>
    intro l2 x
    simp only [List.length_cons, List.cons_append, List.insertIdx_succ_cons]
    rw [ih]

/-- eraseIdx commutes with map. -/
theorem eraseIdx_map_local (f : α → β) :
    ∀ (l : List α) (n : ℕ), (l.map f).eraseIdx n = (l.eraseIdx n).map f := by
  intro l
  induction l with
  | nil => intro n; rfl
  | cons a t ih =>
    intro n
    cases n with
    | zero => rfl
    | succ m => simp [List.eraseIdx_cons_succ, ih]

/-- insertIdx commutes with map. -/
theorem insertIdx_map_local (f : α → β) :
    ∀ (n : ℕ) (l : List α) (x : α),
      List.insertIdx n (f x) (l.map f) = (List.insertIdx n x l).map f := by
  intro n
  induction n with
  | zero => intro l x; rfl
  | succ m ih =>
    intro l x
    cases l with
    | nil => rfl
    | cons a t => simp [List.insertIdx_succ_cons, ih]

/-- popInsert commutes with map. -/
theorem popInsert_map (f : α → β) (l : List α) (i j : ℕ) :
    popInsert (l.map f) i j = (popInsert l i j).map (List.map f) := by
  unfold popInsert
  split
  · rfl
  · rw [List.getElem?_map]
    cases l[i]? with
    | none => rfl
    | some x =>
      simp [eraseIdx_map_local, insertIdx_map_local]

/-- The _move_curve_up loop commutes with mapping the carried list. -/
theorem moveCurveUpAux_map (f : α → β) (iIns : ℕ) :
    ∀ (ss : List ℕ) (k : ℕ) (l : List α),
      moveCurveUpAux iIns ss k (l.map f)
        = (moveCurveUpAux iIns ss k l).map (List.map f) := by
  intro ss
  induction ss with
  | nil => intro k l; rfl
  | cons s ss2 ih =>
    intro k l
    simp only [moveCurveUpAux]
    rw [popInsert_map]
    cases popInsert l s (iIns + k) with
    | none => rfl
    | some l2 => simp [ih]

/-- Reading a list back off the index range reproduces the list. -/
theorem map_getD_range (l : List α) (d : α) :
    (List.range l.length).map (fun i => l.getD i d) = l := by
  induction l with
  | nil => rfl
  | cons a t ih =>
    rw [List.length_cons, List.range_succ_eq_map, List.map_cons,
      List.map_map]
    have hcomp : ((fun i => (a :: t).getD i d) ∘ Nat.succ)
        = fun i => t.getD i d := funext (fun i => rfl)
    rw [hcomp, ih]
    rfl

/-- Bool-filter partition of a list length. -/
theorem length_filter_bool_split :
    ∀ (l : List α) (p : α → Bool),
      (l.filter p).length + (l.filter (fun a => ! p a)).length
        = l.length := by
  intro l
  induction l with
  | nil => intro p; rfl
  | cons a t ih =>
    intro p
    have h := ih p
    cases hpa : p a <;> simp [List.filter_cons, hpa] <;> omega

/-- Below s the distinct members of done (all smaller than s) occupy exactly
done.length slots of the index range. -/
theorem filter_mem_length (done : List ℕ) (s : ℕ) (hnd : done.Nodup)
    (hlt : ∀ d ∈ done, d < s) :
    ((List.range s).filter (fun x => decide (x ∈ done))).length
      = done.length := by
  have hperm :
      ((List.range s).filter (fun x => decide (x ∈ done))).Perm done := by
    apply (List.perm_ext_iff_of_nodup ((List.nodup_range s).filter _)
      hnd).mpr
    intro a
    simp only [List.mem_filter, List.mem_range, decide_eq_true_eq]
    exact ⟨fun h => h.2, fun h => ⟨hlt a h, h⟩⟩
  exact hperm.length_eq

/-- Decomposition of an index range around an interior point. -/
theorem range_decompose (s N : ℕ) (h : s < N) :
    List.range N = List.range s ++ s ::
      ((List.range (N - s - 1)).map (fun j => s + 1 + j)) := by
  have h1 : N = s + ((N - s - 1) + 1) := by omega
  conv_lhs => rw [h1]
  rw [List.range_add, List.range_succ_eq_map, List.map_cons, List.map_map]
  have htail : List.map ((fun x => s + x) ∘ Nat.succ) (List.range (N - s - 1))
      = List.map (fun j => s + 1 + j) (List.range (N - s - 1)) :=
    List.map_congr_left (fun j _ => by
      simp only [Function.comp_apply]
      omega)
  rw [htail]
  simp

/-- The single pop/insert step of move-to-top: with the already-moved block
done at the head and the untouched remainder in original order behind it, the
element with original index s (s beyond the block, all of done below s) is
still found at position s, and moving it to position done.length extends the
moved block by s. -/
theorem popInsert_step (done : List ℕ) (s N : ℕ) (hsN : s < N)
    (hlt : ∀ d ∈ done, d < s) (hnd : done.Nodup) (hk : done.length ≤ s) :
    popInsert (done ++ (List.range N).filter (fun x => decide (x ∉ done)))
        s done.length
      = some ((done ++ [s]) ++
          (List.range N).filter (fun x => decide (x ∉ done ++ [s]))) := by
  have hsnotdone : s ∉ done := fun hc => absurd (hlt s hc) (lt_irrefl s)
  have hsplit : (List.range N).filter (fun x => decide (x ∉ done))
      = (List.range s).filter (fun x => decide (x ∉ done)) ++ s ::
        (((List.range (N - s - 1)).map (fun j => s + 1 + j)).filter
          (fun x => decide (x ∉ done))) := by
    rw [range_decompose s N hsN, List.filter_append, List.filter_cons]
    simp [hsnotdone]
  have hAlen :
      (((List.range s).filter (fun x => decide (x ∉ done))).length)
        = s - done.length := by
    have hsplit2 := length_filter_bool_split (List.range s)
      (fun x => decide (x ∈ done))
    have hmem := filter_mem_length done s hnd hlt
    have hfun : (fun x => ! decide (x ∈ done))
        = fun x : ℕ => decide (x ∉ done) := funext (fun x => by simp)
    rw [hfun] at hsplit2
    rw [List.length_range] at hsplit2
    omega
  have hpos :
      (done ++ (List.range s).filter (fun x => decide (x ∉ done))).length
        = s := by
    rw [List.length_append, hAlen]
    omega
  unfold popInsert
  rw [if_neg (by omega)]
  rw [hsplit, ← List.append_assoc]
  rw [List.getElem?_append_right (le_of_eq hpos)]
  rw [hpos, Nat.sub_self]
  simp only [List.getElem?_cons_zero]
  rw [eraseIdx_append_right_local _ _ s (le_of_eq hpos)]
  rw [hpos, Nat.sub_self]
  simp only [List.eraseIdx_cons_zero]
  rw [List.append_assoc]
  rw [show done.length
      = (done : List ℕ).length from rfl]
  rw [insertIdx_append_self done _ s]
  have hfilterA :
      (List.range s).filter (fun x => decide (x ∉ done ++ [s]))
        = (List.range s).filter (fun x => decide (x ∉ done)) := by
    apply List.filter_congr
    intro x hx
    rw [List.mem_range] at hx
    simp only [decide_eq_decide, List.mem_append, List.mem_singleton]
    constructor
    · intro h hc; exact h (Or.inl hc)
    · rintro h (hc | hc)
      · exact h hc
      · omega
  have hfilterB :
      ((List.range (N - s - 1)).map (fun j => s + 1 + j)).filter
          (fun x => decide (x ∉ done ++ [s]))
        = ((List.range (N - s - 1)).map (fun j => s + 1 + j)).filter
          (fun x => decide (x ∉ done)) := by
    apply List.filter_congr
    intro x hx
    rw [List.mem_map] at hx
    obtain ⟨j, _, hj⟩ := hx
    simp only [decide_eq_decide, List.mem_append, List.mem_singleton]
    constructor
    · intro h hc; exact h (Or.inl hc)
    · rintro h (hc | hc)
      · exact h hc
      · omega
  have hsinl : s ∈ done ++ [s] := List.mem_append_right _ (by simp)
  rw [range_decompose s N hsN, List.filter_append, List.filter_cons]
  simp only [hsinl, not_true_eq_false, decide_False, Bool.false_eq_true,
    if_false]
  rw [hfilterA, hfilterB]
  simp [List.append_assoc]

/-- The full move-to-top loop: starting with the moved block done at the
head, processing the remaining ascending selected indices ss moves their
elements, in order, to the end of the block, leaving everything else in
original relative order. -/
theorem moveCurveUpAux_spec (N : ℕ) :
    ∀ (ss done : List ℕ),
      List.Sorted (· < ·) ss →
      (∀ s ∈ ss, s < N) →
      (∀ d ∈ done, ∀ s ∈ ss, d < s) →
      done.Nodup →
      (∀ s ∈ ss, done.length ≤ s) →
      moveCurveUpAux 0 ss done.length
          (done ++ (List.range N).filter (fun x => decide (x ∉ done)))
        = some ((done ++ ss) ++
            (List.range N).filter (fun x => decide (x ∉ done ++ ss))) := by
  intro ss
  induction ss with
  | nil =>
    intro done _ _ _ _ _
    simp [moveCurveUpAux]
  | cons s ss2 ih =>
    intro done hsort hlt hds hnd hlen
    have hmemhead : s ∈ s :: ss2 := List.mem_cons_self s ss2
    simp only [moveCurveUpAux, Nat.zero_add]
    rw [popInsert_step done s N (hlt s hmemhead)
      (fun d hd => hds d hd s hmemhead) hnd (hlen s hmemhead)]
    have hstep : ∀ t ∈ ss2, s < t := (List.sorted_cons.mp hsort).1
    have hrec := ih (done ++ [s]) (List.sorted_cons.mp hsort).2
      (fun t ht => hlt t (List.mem_cons_of_mem s ht))
      (fun d hd t ht => by
        rcases List.mem_append.mp hd with hc | hc
        · exact lt_trans (hds d hc s hmemhead) (hstep t ht)
        · rw [List.mem_singleton] at hc
          rw [hc]
          exact hstep t ht)
      (by
        rw [List.nodup_append]
        refine ⟨hnd, List.nodup_singleton s, ?_⟩
        intro a ha hb
        rw [List.mem_singleton] at hb
        have h3 := hds a ha s hmemhead
        omega)
      (fun t ht => by
        have h1 := hlen s hmemhead
        have h2 := hstep t ht
        simp only [List.length_append, List.length_singleton]
        omega)
    have hlen2 : (done ++ [s]).length = done.length + 1 := by simp
    rw [hlen2] at hrec
    refine hrec.trans ?_
    congr 2
    · simp [List.append_assoc]
    · apply List.filter_congr
      intro x _
      simp only [decide_eq_decide, List.append_assoc, List.cons_append,
        List.nil_append]

/-- C4: for every non-empty (sorted, in-range) selection, move_to_top moves
the selected curves to the head of the curve list preserving their relative
order and the relative order of the unselected curves, and emits an
old-index → new-index mapping that is a bijection over [0, N): its keys are
exactly the old indices 0..N−1 (each once) and its values are exactly the new
indices 0..N−1 (each once). -/
theorem move_to_top_spec {α : Type} (l : List α) (d : α) (sel : List ℕ)
    (hne : sel ≠ []) (hsort : List.Sorted (· < ·) sel)
    (hlt : ∀ s ∈ sel, s < l.length) :
    ∃ l2 mapping,
      move_to_top sel l = some (l2, mapping) ∧
      l2 = sel.map (fun i => l.getD i d) ++
        ((List.range l.length).filter
          (fun i => decide (i ∉ sel))).map (fun i => l.getD i d) ∧
      mapping.map Prod.fst
        = sel ++ (List.range l.length).filter (fun i => decide (i ∉ sel)) ∧
      (mapping.map Prod.fst).Perm (List.range l.length) ∧
      mapping.map Prod.snd = List.range l.length := by
  have hndsel : sel.Nodup := hsort.imp (fun h => ne_of_lt h)
  have horder : moveCurveUpAux 0 sel 0 (List.range l.length)
      = some (sel ++ (List.range l.length).filter
          (fun x => decide (x ∉ sel))) := by
    have h0 := moveCurveUpAux_spec l.length sel [] hsort hlt
      (by intro d2 hd2; exact absurd hd2 (List.not_mem_nil d2))
      List.nodup_nil (by intro s _; exact Nat.zero_le s)
    simpa using h0
  have hperm : (sel ++ (List.range l.length).filter
      (fun x => decide (x ∉ sel))).Perm (List.range l.length) := by
    apply (List.perm_ext_iff_of_nodup ?_ (List.nodup_range l.length)).mpr
    · intro a
      simp only [List.mem_append, List.mem_filter, List.mem_range,
        decide_eq_true_eq]
      constructor
      · rintro (h | h)
        · exact hlt a h
        · exact h.1
      · intro h
        by_cases hmem : a ∈ sel
        · exact Or.inl hmem
        · exact Or.inr ⟨h, hmem⟩
    · rw [List.nodup_append]
      refine ⟨hndsel, (List.nodup_range l.length).filter _, ?_⟩
      intro a ha hb
      rw [List.mem_filter] at hb
      exact absurd ha (by simpa using hb.2)
  have horderlen : (sel ++ (List.range l.length).filter
      (fun x => decide (x ∉ sel))).length = l.length := by
    rw [hperm.length_eq, List.length_range]
  have hcurves : moveCurveUpAux 0 sel 0 l
      = some (sel.map (fun i => l.getD i d) ++
          ((List.range l.length).filter
            (fun i => decide (i ∉ sel))).map (fun i => l.getD i d)) := by
    conv_lhs => rw [← map_getD_range l d]
    rw [moveCurveUpAux_map, horder]
    simp
  have hempty : sel.isEmpty = false := by
    cases sel with
    | nil => exact absurd rfl hne
    | cons a t => rfl
  refine ⟨sel.map (fun i => l.getD i d) ++
      ((List.range l.length).filter
        (fun i => decide (i ∉ sel))).map (fun i => l.getD i d),
    (sel ++ (List.range l.length).filter
      (fun x => decide (x ∉ sel))).zip (List.range l.length),
    ?_, rfl, ?_, ?_, ?_⟩
  · unfold move_to_top move_curve_up
    simp only [hempty, Bool.false_eq_true, if_false]
    rw [hcurves, horder]
  · exact List.map_fst_zip _ _ (le_of_eq (by rw [horderlen,
      List.length_range]))
  · rw [List.map_fst_zip _ _ (le_of_eq (by rw [horderlen,
      List.length_range]))]
    exact hperm
  · exact List.map_snd_zip _ _ (le_of_eq (by rw [horderlen,
      List.length_range]))

/-- Witness for C4 at a concrete input: selection of positions 1 and 3 in a
four-curve list. -/
theorem move_to_top_spec_witness :
    ([1, 3] : List ℕ) ≠ [] ∧
    List.Sorted (· < ·) ([1, 3] : List ℕ) ∧
    (∀ s ∈ ([1, 3] : List ℕ), s < ([10, 11, 12, 13] : List ℕ).length) ∧
    ∃ l2 mapping,
      move_to_top [1, 3] ([10, 11, 12, 13] : List ℕ)
        = some (l2, mapping) ∧
      l2 = ([1, 3] : List ℕ).map
          (fun i => ([10, 11, 12, 13] : List ℕ).getD i 0) ++
        ((List.range ([10, 11, 12, 13] : List ℕ).length).filter
          (fun i => decide (i ∉ ([1, 3] : List ℕ)))).map
            (fun i => ([10, 11, 12, 13] : List ℕ).getD i 0) ∧
      mapping.map Prod.fst
        = [1, 3] ++ (List.range ([10, 11, 12, 13] : List ℕ).length).filter
            (fun i => decide (i ∉ ([1, 3] : List ℕ))) ∧
      (mapping.map Prod.fst).Perm
        (List.range ([10, 11, 12, 13] : List ℕ).length) ∧
      mapping.map Prod.snd
        = List.range ([10, 11, 12, 13] : List ℕ).length :=
  ⟨by decide, by decide, by decide,
    move_to_top_spec [10, 11, 12, 13] 0 [1, 3] (by decide)
      (by decide) (by decide)⟩

end Linecraft
